import Mathlib

/-!
Verification of the symbolic-expression module `expressions/expressions.py`.

The development has two embeddings of the code:

* an inductive tree `Expr` mirroring the `Expression` class hierarchy
  (`Number`, `Symbol`, and the five `Operator` subclasses, which differ
  only in their static `sym` and `precedence` class attributes), together
  with the renderer `Operator.__str__` / `Terminal.__str__` and the
  `differentiate` single-dispatch rule table;

* a heap (arena) model of object identity for the generic iterative
  evaluator `postvisitor`: a store is a list of nodes addressed by index
  (the index plays the role of CPython object identity), each node being
  its list of operand indices.  `Expression` defines no `__eq__`/`__hash__`,
  so the `visited` dictionary of `postvisitor` is keyed by object identity;
  in the model the keys are the indices themselves.
-/

namespace Expressions

/-- The five `Operator` subclasses.  In the source they differ only in the
class attributes `sym` and `precedence`; everything else (`__str__`,
operand storage) lives once on `Operator`. -/
inductive OpKind where
  | add
  | sub
  | mul
  | div
  | pow
deriving DecidableEq

/-- The class attribute `sym` of each `Operator` subclass. -/
def OpKind.sym : OpKind → String
  | .add => "+"
  | .sub => "-"
  | .mul => "*"
  | .div => "/"
  | .pow => "^"

/-- The class attribute `precedence` of each `Operator` subclass
(`Add`/`Sub` 0, `Mul`/`Div` 1, `Pow` 2). -/
def OpKind.precedence : OpKind → Nat
  | .add => 0
  | .sub => 0
  | .mul => 1
  | .div => 1
  | .pow => 2

/-- Expression trees: `Number` and `Symbol` terminals and binary operator
nodes, as built by the overloaded arithmetic methods of `Expression`.
`Number` values are modelled as integers (every value appearing in the
claims is an integer literal). -/
inductive Expr where
  | Number (v : Int)
  | Symbol (s : String)
  | Op (k : OpKind) (a b : Expr)
deriving DecidableEq

/-- `type(node).precedence`: 3 on both terminal classes, the class
attribute of the operator subclass otherwise. -/
def Expr.precedence : Expr → Nat
  | .Number _ => 3
  | .Symbol _ => 3
  | .Op k _ _ => k.precedence

/-- `self.operands`: the tuple stored by `Expression.__init__` (empty for
terminals, the two children for operators). -/
def Expr.operands : Expr → List Expr
  | .Number _ => []
  | .Symbol _ => []
  | .Op _ a b => [a, b]

/-- `Terminal.__str__` / `Operator.__str__`.  The operator case mirrors the
source's four-way branch on the list `b` of the two comparisons
`type(operand).precedence < type(self).precedence`. -/
def Expr.str : Expr → String
  | .Number v => toString v
  | .Symbol s => s
  | .Op k a b =>
    if a.precedence < k.precedence then
      if b.precedence < k.precedence then
        "(" ++ Expr.str a ++ ")" ++ " " ++ k.sym ++ " " ++ "(" ++ Expr.str b ++ ")"
      else
        "(" ++ Expr.str a ++ ")" ++ " " ++ k.sym ++ " " ++ Expr.str b
    else
      if b.precedence < k.precedence then
        Expr.str a ++ " " ++ k.sym ++ " " ++ "(" ++ Expr.str b ++ ")"
      else
        Expr.str a ++ " " ++ k.sym ++ " " ++ Expr.str b

/-- `Expression.__rsub__` with a numeric left operand: Python evaluates
`literal - node` by calling `node.__rsub__(literal)`, which coerces the
literal to `Number` and returns `Sub(other, self)` in that order. -/
def Expr.rsub (self : Expr) (other : Int) : Expr :=
  .Op .sub (.Number other) self

/-- `Expression.__rtruediv__` with a numeric left operand: returns
`Div(other, self)` after coercing `other` to `Number`. -/
def Expr.rtruediv (self : Expr) (other : Int) : Expr :=
  .Op .div (.Number other) self

/-- The value category of a `differentiate` fold result.  The registered
rules for `Number` and `Symbol` return the raw Python integers `0`/`1`,
while the operator rules combine results with overloaded arithmetic, so a
result is either a raw number or an `Expression` node. -/
inductive PyVal where
  | num (n : Int)
  | expr (e : Expr)
deriving DecidableEq

/-- Whether a fold result is an `Expression` node (as opposed to a raw
Python number). -/
def PyVal.isExpr : PyVal → Bool
  | .num _ => false
  | .expr _ => true

/-- Python `str` applied to a fold result: `str` of the raw integer, or
the tree renderer. -/
def PyVal.str : PyVal → String
  | .num n => toString n
  | .expr e => e.str

/-- Python `value * node` / `node_value * node`: if the left result is a
raw number, `int.__mul__` returns `NotImplemented` and
`Expression.__rmul__` coerces it, giving `Mul(Number value, node)`;
if it is already a node, `Expression.__mul__` gives `Mul(left, node)`. -/
def PyVal.mulNode : PyVal → Expr → Expr
  | .num n, e => .Op .mul (.Number n) e
  | .expr x, e => .Op .mul x e

/-- Python `o0 + o1` on two fold results: raw `int` addition when both are
numbers, otherwise the overloaded `__add__`/`__radd__` with coercion
(order preserved). -/
def PyVal.pyAdd : PyVal → PyVal → PyVal
  | .num a, .num b => .num (a + b)
  | .num a, .expr e => .expr (.Op .add (.Number a) e)
  | .expr e, .num b => .expr (.Op .add e (.Number b))
  | .expr a, .expr b => .expr (.Op .add a b)

/-- The `differentiate` single-dispatch table applied to one node `e` with
the list `o` of already-differentiated operand results and the keyword
argument `var`.  Rules are registered for `Number`, `Symbol`, `Add`,
`Mul`, `Div` and `Pow`; a `Sub` node falls through to the base
implementation, which raises `NotImplementedError` (modelled as `none`).
A wrong number of operand results would raise `IndexError` (also
`none`). -/
def diffFn (e : Expr) (var : String) (o : List PyVal) : Option PyVal :=
  match e with
  | .Number _ => some (.num 0)
  | .Symbol s => some (.num (if s = var then 1 else 0))
  | .Op .add _ _ =>
    match o with
    | [o0, o1] => some (o0.pyAdd o1)
    | _ => none
  | .Op .sub _ _ => none
  | .Op .mul a b =>
    match o with
    | [o0, o1] => some (.expr (.Op .add (o0.mulNode b) (o1.mulNode a)))
    | _ => none
  | .Op .div a b =>
    match o with
    | [o0, o1] =>
      some (.expr (.Op .div (.Op .sub (o0.mulNode b) (o1.mulNode a))
        (.Op .pow b (.Number 2))))
    | _ => none
  | .Op .pow a b =>
    match o with
    | [o0, _o1] =>
      some (.expr (.Op .mul (o0.mulNode b) (.Op .pow a (.Op .sub b (.Number 1)))))
    | _ => none

/-- `postvisitor(expr, differentiate, var=var)` expressed as the
equivalent recursive bottom-up fold over the tree: each node's rule is
applied to its already-differentiated operand results.  (The refinement
theorem for `postvisitor` below shows the iterative evaluator computes
exactly this recursive fold.) -/
def differentiateTree : Expr → String → Option PyVal
  | .Number v, var => diffFn (.Number v) var []
  | .Symbol s, var => diffFn (.Symbol s) var []
  | .Op k a b, var =>
    match differentiateTree a var, differentiateTree b var with
    | some o0, some o1 => diffFn (.Op k a b) var [o0, o1]
    | _, _ => none

/-- Render a child of an operator with precedence `p`: parenthesised
exactly when the child's static precedence is strictly lower. -/
def parenIf (p : Nat) (c : Expr) : String :=
  if c.precedence < p then "(" ++ c.str ++ ")" else c.str

theorem string_append_assoc (a b c : String) : a ++ b ++ c = a ++ (b ++ c) := by
  cases a with
  | mk la =>
    cases b with
    | mk lb =>
      cases c with
      | mk lc =>
        show String.mk (la ++ lb ++ lc) = String.mk (la ++ (lb ++ lc))
        rw [List.append_assoc]

/-- The operator branch of `__str__`, rewritten with the child-wrapping
helper: `LEFT SYM RIGHT` with each side parenthesised iff its precedence
is strictly below the parent's. -/
theorem str_op (k : OpKind) (a b : Expr) :
    (Expr.Op k a b).str =
      parenIf k.precedence a ++ " " ++ k.sym ++ " " ++ parenIf k.precedence b := by
  have hl : ∀ x : String, " " ++ ("(" ++ x) = " (" ++ x := by
    intro x
    rw [← string_append_assoc, show (" " : String) ++ "(" = " (" from rfl]
  by_cases h0 : a.precedence < k.precedence <;>
    by_cases h1 : b.precedence < k.precedence <;>
      simp [Expr.str, parenIf, h0, h1, string_append_assoc, hl]

/-- Claim C1: the claim says every `Sub` node differentiates to `o0 - o1`
and the unsupported-node-kind error branch is unreachable on the seven
listed kinds.  The code registers no `differentiate` rule for `Sub`, so
single dispatch falls through to the base implementation and raises
`NotImplementedError`: the fold is `none` on every `Sub` node, and
differentiating the tree `x - 1` with respect to `x` fails. -/
theorem diff_sub_rule_missing :
    (∀ (a b : Expr) (var : String) (o : List PyVal),
        diffFn (.Op .sub a b) var o = none)
      ∧ differentiateTree (.Op .sub (.Symbol "x") (.Number 1)) "x" = none := by
  exact ⟨fun a b var o => rfl, rfl⟩

/-- Claim C3 counterexample: differentiating the `Number` node `5` does
not return a `Node`: the registered `Number` rule returns the raw Python
integer `0` (`PyVal.isExpr` is `false` on the result), refuting the claim
that every differentiation result is a tree built via the construction
layer. -/
theorem diff_number_not_node_cex :
    (differentiateTree (.Number 5) "x").map PyVal.isExpr = some false := rfl

/-- Claim C3 (amended): the `Number` rule returns the raw integer `0` and
the `Symbol` rule the raw integer `1` or `0` (both render via `str` as
"0"/"1"); only the `Mul`, `Div` and `Pow` rules always return `Expression`
nodes built via the construction layer. -/
theorem diff_rule_result_kinds :
    (∀ (v : Int) (var : String) (o : List PyVal),
        diffFn (.Number v) var o = some (.num 0))
      ∧ (∀ (s var : String) (o : List PyVal),
        diffFn (.Symbol s) var o = some (.num (if s = var then 1 else 0)))
      ∧ (∀ (a b : Expr) (var : String) (o0 o1 : PyVal),
        (diffFn (.Op .mul a b) var [o0, o1]).map PyVal.isExpr = some true
          ∧ (diffFn (.Op .div a b) var [o0, o1]).map PyVal.isExpr = some true
          ∧ (diffFn (.Op .pow a b) var [o0, o1]).map PyVal.isExpr = some true)
      ∧ (differentiateTree (.Number 5) "x").map PyVal.str = some "0"
      ∧ (differentiateTree (.Symbol "x") "x").map PyVal.str = some "1" := by
  exact ⟨fun v var o => rfl, fun s var o => rfl,
    fun a b var o0 o1 => ⟨rfl, rfl, rfl⟩, rfl, rfl⟩

/-- Claim C6: an operator renders as `LEFT SYM RIGHT`, each child
parenthesised exactly when its static precedence is strictly lower than
the parent's; in particular `mul(add(x,y), z)` renders as `"(x + y) * z"`
and `add(mul(x,y), z)` as `"x * y + z"`. -/
theorem render_parenthesization :
    (∀ (k : OpKind) (a b : Expr),
        (Expr.Op k a b).str =
          (if a.precedence < k.precedence then "(" ++ a.str ++ ")" else a.str)
            ++ " " ++ k.sym ++ " "
            ++ (if b.precedence < k.precedence then "(" ++ b.str ++ ")" else b.str))
      ∧ (Expr.Op .mul (.Op .add (.Symbol "x") (.Symbol "y")) (.Symbol "z")).str
          = "(x + y) * z"
      ∧ (Expr.Op .add (.Op .mul (.Symbol "x") (.Symbol "y")) (.Symbol "z")).str
          = "x * y + z" := by
  refine ⟨fun k a b => ?_, rfl, rfl⟩
  rw [str_op]
  rfl

/-- Claim C7: the `Pow` rule returns `o0 * b * a ^ (b - 1)` — that is,
`Mul(Mul(coerced o0, b), Pow(a, Sub(b, Number 1)))`, with the original
operand subtrees `a`, `b` — and differentiating `pow(symbol("x"),
number(3))` with respect to `"x"` renders as `"1 * 3 * x ^ (3 - 1)"`. -/
theorem pow_rule_correct :
    (∀ (a b : Expr) (var : String) (o0 o1 : PyVal),
        diffFn (.Op .pow a b) var [o0, o1]
          = some (.expr (.Op .mul (o0.mulNode b)
              (.Op .pow a (.Op .sub b (.Number 1))))))
      ∧ (differentiateTree (.Op .pow (.Symbol "x") (.Number 3)) "x").map PyVal.str
          = some "1 * 3 * x ^ (3 - 1)" := by
  exact ⟨fun a b var o0 o1 => rfl, rfl⟩

/-- Claim C8: `__rsub__` and `__rtruediv__` coerce a numeric left operand
to a `Number` terminal and keep the operands in the given order — the
built node is `Sub(Number v, e)` / `Div(Number v, e)`, never swapped; in
particular `5 - x` renders as `"5 - x"` and `5 / x` as `"5 / x"`. -/
theorem rsub_rtruediv_order :
    (∀ (v : Int) (e : Expr),
        e.rsub v = .Op .sub (.Number v) e
          ∧ (e.rsub v).operands = [.Number v, e]
          ∧ e.rtruediv v = .Op .div (.Number v) e
          ∧ (e.rtruediv v).operands = [.Number v, e])
      ∧ ((Expr.Symbol "x").rsub 5).str = "5 - x"
      ∧ ((Expr.Symbol "x").rtruediv 5).str = "5 / x" := by
  exact ⟨fun v e => ⟨rfl, rfl, rfl, rfl⟩, rfl, rfl⟩

/-- Claim C10: a child whose precedence equals the parent's is never
parenthesised, in either operand position; hence the distinct trees
`Sub(x, Add(y, z))` and `Add(Sub(x, y), z)` both render as
`"x - y + z"`. -/
theorem equal_precedence_no_parens :
    (∀ (k j : OpKind) (a b c : Expr), j.precedence = k.precedence →
        (Expr.Op k (.Op j a b) c).str
            = (Expr.Op j a b).str ++ " " ++ k.sym ++ " " ++ parenIf k.precedence c
          ∧ (Expr.Op k c (.Op j a b)).str
            = parenIf k.precedence c ++ " " ++ k.sym ++ " " ++ (Expr.Op j a b).str)
      ∧ (Expr.Op .sub (.Symbol "x") (.Op .add (.Symbol "y") (.Symbol "z"))).str
          = "x - y + z"
      ∧ (Expr.Op .add (.Op .sub (.Symbol "x") (.Symbol "y")) (.Symbol "z")).str
          = "x - y + z"
      ∧ Expr.Op .sub (.Symbol "x") (.Op .add (.Symbol "y") (.Symbol "z"))
          ≠ Expr.Op .add (.Op .sub (.Symbol "x") (.Symbol "y")) (.Symbol "z") := by
  refine ⟨fun k j a b c hprec => ?_, rfl, rfl, by decide⟩
  have hnp : ¬ (Expr.Op j a b).precedence < k.precedence := by
    simp [Expr.precedence, hprec]
  constructor
  · rw [str_op]
    have : parenIf k.precedence (.Op j a b) = (Expr.Op j a b).str := by
      simp [parenIf, hnp]
    rw [this]
  · rw [str_op]
    have : parenIf k.precedence (.Op j a b) = (Expr.Op j a b).str := by
      simp [parenIf, hnp]
    rw [this]

/-- Claim C10 witness: the general equal-precedence statement applied at
`k = Add`, `j = Sub`, rendering `Add(Sub(x, y), z)` with the equal
precedence left child unparenthesised. -/
theorem equal_precedence_no_parens_witness :
    (Expr.Op .add (.Op .sub (.Symbol "x") (.Symbol "y")) (.Symbol "z")).str
      = (Expr.Op .sub (.Symbol "x") (.Symbol "y")).str ++ " " ++ OpKind.add.sym
          ++ " " ++ parenIf OpKind.add.precedence (.Symbol "z") :=
  (equal_precedence_no_parens.1 .add .sub (.Symbol "x") (.Symbol "y")
    (.Symbol "z") rfl).1

/-! ## The generic iterative postorder evaluator, over an identity arena

`postvisitor` works on Python objects whose identity is what the
`visited` dictionary is keyed by (`Expression` defines neither `__eq__`
nor `__hash__`, so dictionary membership is object identity).  The model
is an arena: a store is a list whose `i`-th entry is the list of operand
identities of the node with identity `i`.  A fold function receives the
node's identity and the list of its operands' results, mirroring
`fn(e, *(visited[o] for o in e.operands), **kwargs)` (the keyword side
parameters are closed over by `fn`). -/

/-- An arena of nodes: entry `i` is the operand identity list of node
`i`. -/
abbrev Store := List (List Nat)

/-- Acyclicity as realised by construction order: a node's operands were
constructed before it, so their identities are smaller.  (The spec rules
cyclic structures out of scope.) -/
abbrev Store.WF (store : Store) : Prop :=
  ∀ (i : Nat) (ops : List Nat), store[i]? = some ops → ∀ o ∈ ops, o < i

/-- Executable check for `Store.WF`. -/
def Store.wfb (store : Store) : Bool :=
  (List.range store.length).all fun i =>
    (store.getD i []).all fun o => decide (o < i)

theorem Store.wf_of_wfb (store : Store) (h : store.wfb = true) : store.WF := by
  intro i ops hops o ho
  have hlen : i < store.length := by
    by_contra hge
    rw [List.getElem?_eq_none (Nat.le_of_not_lt hge)] at hops
    cases hops
  have hall := (List.all_eq_true.mp h) i (List.mem_range.mpr hlen)
  have hgd : store.getD i [] = ops := by
    rw [List.getD_eq_getElem?_getD, hops]
    rfl
  rw [hgd] at hall
  exact of_decide_eq_true ((List.all_eq_true.mp hall) o ho)

/-- `[visited[o] for o in ops]`: all results, or `none` if any operand is
missing from the memo (which would raise `KeyError`). -/
def mapOpt {R : Type} (g : Nat → Option R) : List Nat → Option (List R)
  | [] => some []
  | x :: xs =>
    match g x, mapOpt g xs with
    | some r, some rs => some (r :: rs)
    | _, _ => none

/-- The `while stack:` loop of `postvisitor`.  The stack is a list with
its head as the Python list's tail (the popped end); `visited` is an
association list keyed by identity whose most recent binding shadows
older ones (dictionary assignment overwrites); the trace records each
identity at the moment `fn` is invoked on it.  Fuel makes the function
total; a cyclic store would simply exhaust any fuel. -/
def pvLoop {R : Type} (store : Store) (fn : Nat → List R → R) :
    Nat → List Nat → List (Nat × R) → List Nat →
      Option (List (Nat × R) × List Nat)
  | 0, _, _, _ => none
  | _ + 1, [], v, tr => some (v, tr)
  | fuel + 1, e :: rest, v, tr =>
    match store[e]? with
    | none => none
    | some ops =>
      if (ops.filter fun o => (v.lookup o).isNone).isEmpty then
        match mapOpt (fun o => v.lookup o) ops with
        | none => none
        | some rs => pvLoop store fn fuel rest ((e, fn e rs) :: v) (tr ++ [e])
      else
        pvLoop store fn fuel
          ((ops.filter fun o => (v.lookup o).isNone).reverse ++ e :: rest) v tr

/-- `postvisitor(expr, fn, **kwargs)`: run the loop from a stack holding
only the root and an empty memo, then return `visited[expr]`. -/
def postvisitorH {R : Type} (store : Store) (fn : Nat → List R → R)
    (fuel : Nat) (root : Nat) : Option R :=
  match pvLoop store fn fuel [root] [] [] with
  | none => none
  | some (v, _) => v.lookup root

/-- The naive recursive postorder fold, with fuel.  This is the
specification-side comparator for the refinement claim: apply `fn` to a
node and the recursively folded results of its operands. -/
def recFoldF {R : Type} (store : Store) (fn : Nat → List R → R) :
    Nat → Nat → Option R
  | 0, _ => none
  | fuel + 1, e =>
    match store[e]? with
    | none => none
    | some ops => (mapOpt (recFoldF store fn fuel) ops).map (fn e)

/-- The naive recursive postorder fold of an acyclic store: fuel `e + 1`
always suffices because operand identities strictly decrease. -/
def recFold {R : Type} (store : Store) (fn : Nat → List R → R) (e : Nat) :
    Option R :=
  recFoldF store fn (e + 1) e

/-- Claim C2 counterexample: in the tree `add(S, S)` sharing the single
instance `S` (identity 0) as both operands, `postvisitor` invokes the
fold on `S` twice, not once: both pending occurrences of `S` are pushed
while unvisited, and each pop recomputes and restores `visited[S]`.  The
claim of at-most-one invocation per instance fails. -/
theorem shared_instance_cex :
    Option.map (fun p => p.2.count 0)
        (pvLoop [[], [0, 0]] (fun _ _ => (0 : Nat)) 10 [1] [] [])
      = some 2 := rfl

/-- Claim C2 (amended): for `add(S, S)` with the same instance `S` as both
operands, the fold is invoked on `S` exactly twice — once per occurrence
pushed while unvisited — and on the root once, for every fold function
and result type: the invocation trace is `[S, S, root]`. -/
theorem shared_instance_trace (R : Type) (fn : Nat → List R → R) :
    Option.map Prod.snd (pvLoop [[], [0, 0]] fn 10 [1] [] [])
      = some [0, 0, 1] := rfl

/-- Claim C5: the memo is keyed by identity, so the two separately
constructed (value-equal) terminal instances with identities 0 and 1 used
as the operands of `add` are evaluated independently: the fold is invoked
exactly once on each of them (twice in total), for every fold function.
Membership tests in `visited` consult identities only, never payload
values. -/
theorem distinct_instances_trace (R : Type) (fn : Nat → List R → R) :
    Option.map Prod.snd (pvLoop [[], [], [0, 1]] fn 10 [2] [] [])
        = some [1, 0, 2]
      ∧ Option.map (fun p => (p.2.count 0, p.2.count 1))
          (pvLoop [[], [], [0, 1]] fn 10 [2] [] [])
        = some (1, 1) :=
  ⟨rfl, rfl⟩

/-! ### Refinement: the iterative loop computes the recursive fold

The proof follows the loop's invariant: every memo entry equals the
recursive fold of its node, and a node is only memoised after its
operands.  Termination over acyclic stores is measured by the number of
unvisited nodes (counted with multiplicity) below the node being
processed. -/

theorem lookup_cons_ite {R : Type} (v : List (Nat × R)) (i k : Nat) (r : R) :
    ((k, r) :: v).lookup i = if i = k then some r else v.lookup i := by
  rw [List.lookup_cons]
  by_cases h : i = k
  · simp [h]
  · have hbe : (i == k) = false := beq_eq_false_iff_ne.mpr h
    simp [hbe, h]

theorem mapOpt_congr {R : Type} {g1 g2 : Nat → Option R} {l : List Nat}
    (h : ∀ x ∈ l, g1 x = g2 x) : mapOpt g1 l = mapOpt g2 l := by
  induction l with
  | nil => rfl
  | cons x xs ih =>
    simp only [mapOpt]
    rw [h x (by simp), ih fun y hy => h y (by simp [hy])]

theorem mapOpt_exists_of_isSome {R : Type} {g : Nat → Option R} {l : List Nat}
    (h : ∀ x ∈ l, (g x).isSome) : ∃ rs, mapOpt g l = some rs := by
  induction l with
  | nil => exact ⟨[], rfl⟩
  | cons x xs ih =>
    obtain ⟨r, hr⟩ := Option.isSome_iff_exists.mp (h x (by simp))
    obtain ⟨rs, hrs⟩ := ih fun y hy => h y (by simp [hy])
    exact ⟨r :: rs, by simp [mapOpt, hr, hrs]⟩

theorem recFoldF_stable {R : Type} {store : Store} {fn : Nat → List R → R}
    (hwf : store.WF) :
    ∀ (e f g : Nat), e < f → e < g →
      recFoldF store fn f e = recFoldF store fn g e := by
  intro e
  induction e using Nat.strong_induction_on with
  | _ e ih =>
    intro f g hf hg
    obtain ⟨f, rfl⟩ : ∃ f', f = f' + 1 := ⟨f - 1, by omega⟩
    obtain ⟨g, rfl⟩ : ∃ g', g = g' + 1 := ⟨g - 1, by omega⟩
    cases hops : store[e]? with
    | none => simp only [recFoldF, hops]
    | some ops =>
      simp only [recFoldF, hops]
      have hcng : mapOpt (recFoldF store fn f) ops
          = mapOpt (recFoldF store fn g) ops := by
        apply mapOpt_congr
        intro o ho
        have hoe : o < e := hwf e ops hops o ho
        exact ih o hoe f g (by omega) (by omega)
      rw [hcng]

/-- The termination measure: unvisited nodes (with multiplicity) in the
unfolding of a node, given the current visited set. -/
def ucount (store : Store) (vis : Nat → Bool) : Nat → Nat → Nat
  | 0, _ => 0
  | fuel + 1, e =>
    if vis e then 0
    else
      match store[e]? with
      | none => 0
      | some ops => 1 + (ops.map (ucount store vis fuel)).sum

theorem ucount_stable {store : Store} (hwf : store.WF) (vis : Nat → Bool) :
    ∀ (e f g : Nat), e < f → e < g →
      ucount store vis f e = ucount store vis g e := by
  intro e
  induction e using Nat.strong_induction_on with
  | _ e ih =>
    intro f g hf hg
    obtain ⟨f, rfl⟩ : ∃ f', f = f' + 1 := ⟨f - 1, by omega⟩
    obtain ⟨g, rfl⟩ : ∃ g', g = g' + 1 := ⟨g - 1, by omega⟩
    cases hv : vis e
    · cases hops : store[e]? with
      | none => simp only [ucount, hops, hv, Bool.false_eq_true, if_false]
      | some ops =>
        simp only [ucount, hops, hv, Bool.false_eq_true, if_false]
        have hcng : ops.map (ucount store vis f) = ops.map (ucount store vis g) := by
          apply List.map_congr_left
          intro o ho
          have hoe : o < e := hwf e ops hops o ho
          exact ih o hoe f g (by omega) (by omega)
        rw [hcng]
    · simp [ucount, hv]

theorem ucount_mono {store : Store} {vis vis' : Nat → Bool}
    (h : ∀ i, vis i = true → vis' i = true) :
    ∀ (f e : Nat), ucount store vis' f e ≤ ucount store vis f e := by
  intro f
  induction f with
  | zero => intro e; exact le_refl _
  | succ f ih =>
    intro e
    by_cases hv' : vis' e = true
    · simp [ucount, hv']
    · have hv : ¬ vis e = true := fun hvis => hv' (h e hvis)
      cases hops : store[e]? with
      | none => simp [ucount, hops, hv, hv']
      | some ops =>
        simp only [ucount, hops, if_neg hv, if_neg hv']
        have hsum := List.sum_le_sum fun o (_ : o ∈ ops) => ih o
        omega

theorem ucount_child_lt {store : Store} (hwf : store.WF) (vis : Nat → Bool)
    {e o : Nat} {ops : List Nat} (hops : store[e]? = some ops) (ho : o ∈ ops)
    (hve : ¬ vis e = true) :
    ucount store vis (o + 1) o < ucount store vis (e + 1) e := by
  have hoe : o < e := hwf e ops hops o ho
  have hstable : ucount store vis e o = ucount store vis (o + 1) o :=
    ucount_stable hwf vis o e (o + 1) hoe (Nat.lt_succ_self o)
  have hmem : ucount store vis e o ∈ ops.map (ucount store vis e) :=
    List.mem_map_of_mem _ ho
  have hle : ucount store vis e o ≤ (ops.map (ucount store vis e)).sum :=
    List.single_le_sum (fun x _ => Nat.zero_le x) _ hmem
  have hunf : ucount store vis (e + 1) e
      = 1 + (ops.map (ucount store vis e)).sum := by
    simp only [ucount]
    rw [if_neg hve, hops]
  omega

/-- Loop invariant: every memo entry is the recursive fold of its node. -/
abbrev InvV {R : Type} (store : Store) (fn : Nat → List R → R)
    (v : List (Nat × R)) : Prop :=
  ∀ (i : Nat) (r : R), v.lookup i = some r → recFoldF store fn (i + 1) i = some r

/-- Loop invariant: a memoised node's operands are memoised (a node is
only computed once all its operands have results, and the memo never
shrinks). -/
abbrev ClosedV {R : Type} (store : Store) (v : List (Nat × R)) : Prop :=
  ∀ (i : Nat) (ops : List Nat), store[i]? = some ops →
    (v.lookup i).isSome → ∀ o ∈ ops, (v.lookup o).isSome

theorem pvLoop_step_compute {R : Type} {store : Store} {fn : Nat → List R → R}
    {e : Nat} {ops : List Nat} {v : List (Nat × R)} {rs : List R}
    (hops : store[e]? = some ops)
    (hU : (ops.filter fun o => (v.lookup o).isNone) = [])
    (hrs : mapOpt (fun o => v.lookup o) ops = some rs) :
    ∀ (f : Nat) (rest tr : List Nat),
      pvLoop store fn (f + 1) (e :: rest) v tr
        = pvLoop store fn f rest ((e, fn e rs) :: v) (tr ++ [e]) := by
  intro f rest tr
  simp only [pvLoop, hops, hU, List.isEmpty_nil, if_true, hrs]

theorem pvLoop_step_push {R : Type} {store : Store} {fn : Nat → List R → R}
    {e : Nat} {ops : List Nat} {v : List (Nat × R)}
    (hops : store[e]? = some ops)
    (hne : (ops.filter fun o => (v.lookup o).isNone) ≠ []) :
    ∀ (f : Nat) (rest tr : List Nat),
      pvLoop store fn (f + 1) (e :: rest) v tr
        = pvLoop store fn f
            ((ops.filter fun o => (v.lookup o).isNone).reverse ++ e :: rest)
            v tr := by
  intro f rest tr
  have hemp : ¬ ((ops.filter fun o => (v.lookup o).isNone).isEmpty = true) :=
    fun h => hne (List.isEmpty_iff.mp h)
  simp only [pvLoop, hops]
  rw [if_neg hemp]

/-- Memoising a node whose operands all have results preserves the loop
invariants, and the new entry is the node's recursive fold. -/
theorem inv_after_compute {R : Type} {store : Store} {fn : Nat → List R → R}
    (hwf : store.WF) {e : Nat} {ops : List Nat} {v : List (Nat × R)}
    {rs : List R}
    (hops : store[e]? = some ops)
    (hall : ∀ o ∈ ops, (v.lookup o).isSome)
    (hrs : mapOpt (fun o => v.lookup o) ops = some rs)
    (hinv : InvV store fn v) (hcl : ClosedV store v) :
    InvV store fn ((e, fn e rs) :: v) ∧ ClosedV store ((e, fn e rs) :: v)
      ∧ (∀ i, (v.lookup i).isSome → (((e, fn e rs) :: v).lookup i).isSome)
      ∧ (((e, fn e rs) :: v).lookup e).isSome := by
  have hmono : ∀ i, (v.lookup i).isSome → (((e, fn e rs) :: v).lookup i).isSome := by
    intro i hi
    rw [lookup_cons_ite]
    by_cases hie : i = e <;> simp [hie, hi]
  have hrec : recFoldF store fn (e + 1) e = some (fn e rs) := by
    simp only [recFoldF, hops]
    have hmap : mapOpt (recFoldF store fn e) ops = some rs := by
      have hcng : mapOpt (recFoldF store fn e) ops
          = mapOpt (fun o => v.lookup o) ops := by
        apply mapOpt_congr
        intro o ho
        have hoe : o < e := hwf e ops hops o ho
        obtain ⟨ro, hro⟩ := Option.isSome_iff_exists.mp (hall o ho)
        show recFoldF store fn e o = v.lookup o
        rw [hro, recFoldF_stable hwf o e (o + 1) hoe (Nat.lt_succ_self o)]
        exact hinv o ro hro
      rw [hcng, hrs]
    rw [hmap]
    rfl
  refine ⟨?_, ?_, hmono, by rw [lookup_cons_ite, if_pos rfl]; rfl⟩
  · intro i r hir
    rw [lookup_cons_ite] at hir
    by_cases hie : i = e
    · rw [if_pos hie, Option.some_inj] at hir
      subst hie
      rw [← hir]
      exact hrec
    · rw [if_neg hie] at hir
      exact hinv i r hir
  · intro i ops' hops' hi o ho
    rw [lookup_cons_ite] at hi
    by_cases hie : i = e
    · subst hie
      rw [hops] at hops'
      have : ops' = ops := by
        exact (Option.some_inj.mp hops').symm
      subst this
      exact hmono o (hall o ho)
    · rw [if_neg hie] at hi
      exact hmono o (hcl i ops' hops' hi o ho)

/-- Processing the top stack entry: from any state satisfying the loop
invariants, after finitely many iterations the loop has memoised the top
node (appending some invocation trace) and continues with the rest of the
stack, invariants preserved. -/
theorem pvProcess {R : Type} {store : Store} {fn : Nat → List R → R}
    (hwf : store.WF) :
    ∀ (m e : Nat), e < store.length →
      ∀ (v : List (Nat × R)), InvV store fn v → ClosedV store v →
        ucount store (fun i => (v.lookup i).isSome) (e + 1) e ≤ m →
        ∃ (k : Nat) (v' : List (Nat × R)) (d : List Nat),
          (∀ (g : Nat) (rest tr : List Nat),
            pvLoop store fn (g + k) (e :: rest) v tr
              = pvLoop store fn g rest v' (tr ++ d))
          ∧ InvV store fn v' ∧ ClosedV store v'
          ∧ (∀ i, (v.lookup i).isSome → (v'.lookup i).isSome)
          ∧ (v'.lookup e).isSome := by
  intro m
  induction m using Nat.strong_induction_on with
  | _ m ih =>
    intro e he v hinv hcl hm
    have hops : store[e]? = some store[e] := List.getElem?_eq_getElem he
    by_cases hU : (store[e].filter fun o => (v.lookup o).isNone) = []
    · -- every operand already has a memo entry: one compute step
      have hall : ∀ o ∈ store[e], (v.lookup o).isSome := by
        intro o ho
        have hno := List.filter_eq_nil_iff.mp hU o ho
        cases hvo : v.lookup o
        · rw [hvo] at hno
          exact absurd rfl hno
        · rfl
      obtain ⟨rs, hrs⟩ :=
        mapOpt_exists_of_isSome (g := fun o => v.lookup o) hall
      obtain ⟨hinv', hcl', hmono', hsome'⟩ :=
        inv_after_compute hwf hops hall hrs hinv hcl
      exact ⟨1, (e, fn e rs) :: v, [e],
        fun g rest tr => pvLoop_step_compute hops hU hrs g rest tr,
        hinv', hcl', hmono', hsome'⟩
    · -- some operand is unvisited: push it (them), process, then compute
      have hve : ¬ ((v.lookup e).isSome = true) := by
        intro hvis
        apply hU
        rw [List.filter_eq_nil_iff]
        intro o ho
        have := hcl e store[e] hops hvis o ho
        simp [Option.isNone_iff_eq_none] at this ⊢
        exact this
      -- process an arbitrary list of children whose measures are below m
      have aux : ∀ (cs : List Nat), (∀ c ∈ cs, c < store.length) →
          ∀ (v1 : List (Nat × R)), InvV store fn v1 → ClosedV store v1 →
            (∀ i, (v.lookup i).isSome → (v1.lookup i).isSome) →
            (∀ c ∈ cs,
              ucount store (fun i => (v.lookup i).isSome) (c + 1) c < m) →
            ∃ (k : Nat) (v2 : List (Nat × R)) (d : List Nat),
              (∀ (g : Nat) (rest tr : List Nat),
                pvLoop store fn (g + k) (cs ++ rest) v1 tr
                  = pvLoop store fn g rest v2 (tr ++ d))
              ∧ InvV store fn v2 ∧ ClosedV store v2
              ∧ (∀ i, (v1.lookup i).isSome → (v2.lookup i).isSome)
              ∧ (∀ c ∈ cs, (v2.lookup c).isSome) := by
        intro cs
        induction cs with
        | nil =>
          intro _ v1 hinv1 hcl1 _ _
          refine ⟨0, v1, [], fun g rest tr => by simp, hinv1, hcl1,
            fun i hi => hi, by simp⟩
        | cons c cs ihcs =>
          intro hlen v1 hinv1 hcl1 hmono1 hmeas
          have hm1 : ucount store (fun i => (v1.lookup i).isSome) (c + 1) c < m :=
            lt_of_le_of_lt (ucount_mono (fun i hi => hmono1 i hi) (c + 1) c)
              (hmeas c (by simp))
          obtain ⟨k1, v2, d1, heq1, hinv2, hcl2, hmono2, hsome2⟩ :=
            ih (ucount store (fun i => (v1.lookup i).isSome) (c + 1) c) hm1 c
              (hlen c (by simp)) v1 hinv1 hcl1 (le_refl _)
          obtain ⟨k2, v3, d2, heq2, hinv3, hcl3, hmono3, hsome3⟩ :=
            ihcs (fun x hx => hlen x (by simp [hx])) v2 hinv2 hcl2
              (fun i hi => hmono2 i (hmono1 i hi))
              (fun x hx => hmeas x (by simp [hx]))
          refine ⟨k2 + k1, v3, d1 ++ d2, ?_, hinv3, hcl3,
            fun i hi => hmono3 i (hmono2 i hi), ?_⟩
          · intro g rest tr
            have hfuel : g + (k2 + k1) = (g + k2) + k1 := by omega
            calc pvLoop store fn (g + (k2 + k1)) ((c :: cs) ++ rest) v1 tr
                = pvLoop store fn ((g + k2) + k1) (c :: (cs ++ rest)) v1 tr := by
                  rw [hfuel, List.cons_append]
              _ = pvLoop store fn (g + k2) (cs ++ rest) v2 (tr ++ d1) :=
                  heq1 (g + k2) (cs ++ rest) tr
              _ = pvLoop store fn g rest v3 ((tr ++ d1) ++ d2) :=
                  heq2 g rest (tr ++ d1)
              _ = pvLoop store fn g rest v3 (tr ++ (d1 ++ d2)) := by
                  rw [List.append_assoc]
          · intro x hx
            rcases List.mem_cons.mp hx with hxc | hxcs
            · subst hxc
              exact hmono3 x hsome2
            · exact hsome3 x hxcs
      obtain ⟨kA, v2, dA, heqA, hinv2, hcl2, hmono2, hsome2⟩ :=
        aux (store[e].filter fun o => (v.lookup o).isNone).reverse
          (fun c hc =>
            lt_trans
              (hwf e store[e] hops c
                (List.mem_filter.mp (List.mem_reverse.mp hc)).1)
              he)
          v hinv hcl (fun i hi => hi)
          (fun c hc => by
            have hco : c ∈ store[e] :=
              (List.mem_filter.mp (List.mem_reverse.mp hc)).1
            have hlt := ucount_child_lt hwf (fun i => (v.lookup i).isSome)
              hops hco hve
            omega)
      have hall2 : ∀ o ∈ store[e], (v2.lookup o).isSome := by
        intro o ho
        cases hvo : (v.lookup o).isNone
        · exact hmono2 o (by
            cases hlo : v.lookup o
            · rw [hlo] at hvo
              cases hvo
            · rfl)
        · exact hsome2 o
            (List.mem_reverse.mpr (List.mem_filter.mpr ⟨ho, hvo⟩))
      have hU2 : (store[e].filter fun o => (v2.lookup o).isNone) = [] := by
        rw [List.filter_eq_nil_iff]
        intro o ho
        have := hall2 o ho
        cases hlo : v2.lookup o
        · rw [hlo] at this
          cases this
        · simp
      obtain ⟨rs2, hrs2⟩ :=
        mapOpt_exists_of_isSome (g := fun o => v2.lookup o) hall2
      obtain ⟨hinv', hcl', hmono', hsome'⟩ :=
        inv_after_compute hwf hops hall2 hrs2 hinv2 hcl2
      refine ⟨kA + 2, (e, fn e rs2) :: v2, dA ++ [e], ?_, hinv', hcl',
        fun i hi => hmono' i (hmono2 i hi), hsome'⟩
      intro g rest tr
      have hfuel : g + (kA + 2) = (((g + 1) + kA) + 1) := by omega
      calc pvLoop store fn (g + (kA + 2)) (e :: rest) v tr
          = pvLoop store fn (((g + 1) + kA) + 1) (e :: rest) v tr := by
            rw [hfuel]
        _ = pvLoop store fn ((g + 1) + kA)
              ((store[e].filter fun o => (v.lookup o).isNone).reverse
                ++ e :: rest) v tr :=
            pvLoop_step_push hops hU ((g + 1) + kA) rest tr
        _ = pvLoop store fn (g + 1) (e :: rest) v2 (tr ++ dA) :=
            heqA (g + 1) (e :: rest) tr
        _ = pvLoop store fn g rest ((e, fn e rs2) :: v2) ((tr ++ dA) ++ [e]) :=
            pvLoop_step_compute hops hU2 hrs2 g rest (tr ++ dA)
        _ = pvLoop store fn g rest ((e, fn e rs2) :: v2) (tr ++ (dA ++ [e])) := by
            rw [List.append_assoc]

/-- The iterative evaluator refines the recursive fold: on an acyclic
store, with enough fuel, `postvisitor` returns exactly the recursive
postorder fold of the root (which is defined). -/
theorem postvisitor_refines (R : Type) (store : Store)
    (fn : Nat → List R → R) (e : Nat) (hwf : store.WF)
    (he : e < store.length) :
    ∃ fuel, postvisitorH store fn fuel e = recFold store fn e
      ∧ (recFold store fn e).isSome := by
  have hinv0 : InvV store fn ([] : List (Nat × R)) := by
    intro i r hir
    cases hir
  have hcl0 : ClosedV store ([] : List (Nat × R)) := by
    intro i ops _ hi
    cases hi
  obtain ⟨k, v', d, heq, hinv, _, _, hsome⟩ :=
    pvProcess hwf
      (ucount store (fun i => ((([] : List (Nat × R))).lookup i).isSome)
        (e + 1) e)
      e he [] hinv0 hcl0 (le_refl _)
  obtain ⟨r, hr⟩ := Option.isSome_iff_exists.mp hsome
  have hrun : pvLoop store fn (1 + k) [e] ([] : List (Nat × R)) []
      = some (v', [] ++ d) := by
    rw [heq 1 [] []]
    rfl
  refine ⟨1 + k, ?_, ?_⟩
  · rw [postvisitorH, hrun]
    show v'.lookup e = recFold store fn e
    rw [hr, recFold, hinv e r hr]
  · rw [recFold, hinv e r hr]
    rfl

/-- Claim C9: for every acyclic store and every fold function, the
iterative stack-based `postvisitor` returns the same result as the naive
recursive post-order fold of the same function over the tree. -/
theorem postvisitor_eq_recursive_fold (R : Type) (store : Store)
    (fn : Nat → List R → R) (e : Nat) (hwf : store.WF)
    (he : e < store.length) :
    ∃ fuel, postvisitorH store fn fuel e = recFold store fn e
      ∧ (recFold store fn e).isSome :=
  postvisitor_refines R store fn e hwf he

/-- Claim C9 witness: the refinement applied to the concrete store
`add(leaf, leaf)` with the summing fold. -/
theorem postvisitor_eq_recursive_fold_witness :
    ∃ fuel, postvisitorH [[], [], [0, 1]] (fun e rs => e + rs.sum) fuel 2
        = recFold [[], [], [0, 1]] (fun e rs => e + rs.sum) 2
      ∧ (recFold [[], [], [0, 1]] (fun e rs => e + rs.sum) 2).isSome :=
  postvisitor_eq_recursive_fold Nat [[], [], [0, 1]] (fun e rs => e + rs.sum) 2
    (Store.wf_of_wfb _ rfl) (by decide)

/-! ### Depth behaviour on a left-leaning chain of `add` nodes -/

/-- The left-leaning chain of `n` nested `add` nodes as an arena:
identity `0` is the leaf symbol, and level `k` adds a fresh terminal
(identity `2k - 1`) and the node `Add(previous root, terminal)`
(identity `2k`); the root of `chainStore n` is `2 * n`. -/
def chainStore : Nat → Store
  | 0 => [[]]
  | n + 1 => chainStore n ++ [[], [2 * n, 2 * n + 1]]

theorem chainStore_length (n : Nat) : (chainStore n).length = 2 * n + 1 := by
  induction n with
  | zero => rfl
  | succ n ih =>
    show (chainStore n ++ [[], [2 * n, 2 * n + 1]]).length = 2 * (n + 1) + 1
    rw [List.length_append, ih]
    simp
    omega

theorem chainStore_wf (n : Nat) : (chainStore n).WF := by
  induction n with
  | zero =>
    intro i ops hops o ho
    cases i with
    | zero =>
      simp only [chainStore, List.getElem?_cons_zero, Option.some_inj] at hops
      subst hops
      cases ho
    | succ i =>
      simp [chainStore] at hops
  | succ n ih =>
    intro i ops hops o ho
    rw [show chainStore (n + 1) = chainStore n ++ [[], [2 * n, 2 * n + 1]]
        from rfl,
      List.getElem?_append] at hops
    by_cases hi : i < (chainStore n).length
    · rw [if_pos hi] at hops
      exact ih i ops hops o ho
    · rw [if_neg hi] at hops
      rw [chainStore_length] at hi
      rcases hj : i - (chainStore n).length with _ | _ | j2
      · rw [hj, List.getElem?_cons_zero, Option.some_inj] at hops
        subst hops
        cases ho
      · rw [hj] at hops
        simp only [List.getElem?_cons_succ, List.getElem?_cons_zero,
          Option.some_inj] at hops
        subst hops
        rw [chainStore_length] at hj
        have hio : i = 2 * n + 2 := by omega
        rcases List.mem_cons.mp ho with h | h
        · omega
        · rcases List.mem_cons.mp h with h2 | h2
          · omega
          · cases h2
      · rw [hj] at hops
        simp at hops

/-- The same chain as a tree, for the renderer side. -/
def chainE : Nat → Expr
  | 0 => .Symbol "x"
  | n + 1 => .Op .add (chainE n) (.Number 1)

/-- The recursion depth of the renderer: `Operator.__str__` calls `str`
on each operand and `Terminal.__str__` returns directly, so the call
depth is one more than the deeper child's. -/
def strDepth : Expr → Nat
  | .Number _ => 1
  | .Symbol _ => 1
  | .Op _ a b => 1 + max (strDepth a) (strDepth b)

theorem strDepth_chainE : ∀ n, strDepth (chainE n) = n + 1 := by
  intro n
  induction n with
  | zero => rfl
  | succ n ih =>
    show 1 + max (strDepth (chainE n)) (strDepth (.Number 1)) = n + 1 + 1
    rw [ih]
    show 1 + max (n + 1) 1 = n + 1 + 1
    omega

/-- Claim C4 counterexample: rendering the left-leaning chain of 10,000
nested `add` nodes requires a `__str__` call depth of 10,001 — the
renderer recurses on tree depth, far beyond CPython's default recursion
limit of 1,000, so `str` on this tree raises `RecursionError`.  This
refutes the claim that neither traversal nor rendering uses unbounded
recursion on tree depth. -/
theorem render_depth_cex :
    strDepth (chainE 10000) = 10001 ∧ 1000 < strDepth (chainE 10000) := by
  have h := strDepth_chainE 10000
  exact ⟨h, by omega⟩

/-- Claim C4 (amended): the evaluator side of the claim holds — the
left-leaning chain of 10,000 nested `add` nodes is traversed by
`postvisitor` with an explicit work stack and no call-stack recursion,
terminating with a result for every fold function — but rendering is a
direct recursion whose call depth equals the nesting depth
(`n + 1` frames on a chain of `n` nodes, 10,001 here), so rendering deep
trees is call-stack bound. -/
theorem chain_depth_behaviour :
    (∀ (R : Type) (fn : Nat → List R → R),
      ∃ fuel, (postvisitorH (chainStore 10000) fn fuel 20000).isSome)
      ∧ strDepth (chainE 10000) = 10001
      ∧ (∀ n, strDepth (chainE n) = n + 1) := by
  refine ⟨?_, strDepth_chainE 10000, strDepth_chainE⟩
  intro R fn
  obtain ⟨fuel, h1, h2⟩ := postvisitor_refines R (chainStore 10000) fn 20000
    (chainStore_wf 10000) (by rw [chainStore_length]; omega)
  exact ⟨fuel, by rw [h1]; exact h2⟩

end Expressions
